import Mathlib

/-
Verification of the media-playback scheduler in qt/aqt/sound.py.

The embedding covers:
  - AVPlayer._best_player_for_tag (player ranking and stable-sort selection),
  - the AVPlayer queue/active-slot state machine (play_tags, extend_and_play,
    insert_file, stop_and_clear_queue, _on_play_finished, _play_next_if_idle),
  - SimpleProcessPlayer's background supervision loop (_wait_for_termination),
    its stop() bounded wait, and the _on_done callback gate,
  - MpvManager's on_done bookkeeping (play / stop / on_idle),
  - the class-level args list shared by SimpleMplayerPlayer and
    SimpleMplayerSlaveModePlayer.

Machine integers do not occur in the modelled code; ranks are Python ints used
as sort keys (embedded as Nat, since rank_for_tag returns non-negative
suitability scores) and exit codes are embedded as Int.
-/

/-- AVTag (anki.sound.AVTag): a tagged union of playable media.  The scheduler
handles a sound-or-video file reference; other kinds (e.g. text-to-speech)
exist and are exactly the tags a SoundOrVideoPlayer cannot handle. -/
inductive AVTag where
  | soundOrVideo (filename : String)
  | otherKind (descr : String)
deriving DecidableEq, Repr

/-- A registered player as seen by AVPlayer's selection logic: only its
rank_for_tag capability matters (Player.rank_for_tag, sound.py lines 42-49:
None means "cannot play this tag", otherwise a suitability rank). -/
structure PlayerSpec where
  rankForTag : AVTag → Option Nat

/-- SoundOrVideoPlayer.rank_for_tag (sound.py lines 66-73): rank 0 for
sound-or-video tags, None otherwise. -/
def soundOrVideoRank (tag : AVTag) : Option Nat :=
  match tag with
  | .soundOrVideo _ => some 0
  | .otherKind _ => none

/-- One insertion step of a stable ascending sort keyed on the first component
(the rank).  Python's list.sort(key=itemgetter(0)) in _best_player_for_tag
(sound.py line 173) is a stable ascending sort; stable ascending sorts are
extensionally unique, so insertion sort is a faithful embedding.  Sortedness
and stability are checked by sortByRank_pairwise and sortByRank_stable. -/
def insertByRank (a : Nat × Nat) : List (Nat × Nat) → List (Nat × Nat)
  | [] => [a]
  | b :: l => if a.1 ≤ b.1 then a :: b :: l else b :: insertByRank a l

/-- The stable ascending sort on ranks (sound.py line 173). -/
def sortByRank : List (Nat × Nat) → List (Nat × Nat)
  | [] => []
  | a :: l => insertByRank a (sortByRank l)

/-- Specification helper: the latest-positioned element of maximal rank, which
is where the last element of a stable ascending sort must come from. -/
def lastMax : List (Nat × Nat) → Option (Nat × Nat)
  | [] => none
  | a :: l =>
    match lastMax l with
    | none => some a
    | some b => if a.1 ≤ b.1 then some b else some a

/-- The ranked list built by the for-loop of _best_player_for_tag (sound.py
lines 167-171): (rank, player) pairs for every registered player whose
rank_for_tag is non-None, in registry order.  Players are identified by their
registry index, threaded through the accumulator i. -/
def rankedForAux (tag : AVTag) : List PlayerSpec → Nat → List (Nat × Nat)
  | [], _ => []
  | p :: ps, i =>
    match p.rankForTag tag with
    | some r => (r, i) :: rankedForAux tag ps (i + 1)
    | none => rankedForAux tag ps (i + 1)

def rankedFor (players : List PlayerSpec) (tag : AVTag) : List (Nat × Nat) :=
  rankedForAux tag players 0

/-- AVPlayer._best_player_for_tag (sound.py lines 166-178): build the ranked
list, stable-sort ascending by rank, and return the player of the last
element (ranked[-1][1]), or None when the ranked list is empty.  The result
is the registry index of the chosen player. -/
def bestPlayerForTag (players : List PlayerSpec) (tag : AVTag) : Option Nat :=
  (sortByRank (rankedFor players tag)).getLast?.map Prod.snd

theorem mem_insertByRank {x a : Nat × Nat} {l : List (Nat × Nat)} :
    x ∈ insertByRank a l ↔ x = a ∨ x ∈ l := by
  induction l with
  | nil => simp [insertByRank]
  | cons b l ih =>
    by_cases h : a.1 ≤ b.1
    · simp [insertByRank, h]
    · simp only [insertByRank, if_neg h, List.mem_cons, ih]
      tauto

theorem insertByRank_pairwise (a : Nat × Nat) (l : List (Nat × Nat))
    (h : l.Pairwise (fun x y => x.1 ≤ y.1)) :
    (insertByRank a l).Pairwise (fun x y => x.1 ≤ y.1) := by
  induction l with
  | nil => simp [insertByRank]
  | cons b l ih =>
    rcases List.pairwise_cons.mp h with ⟨hb, hl⟩
    by_cases hab : a.1 ≤ b.1
    · simp only [insertByRank, if_pos hab]
      refine List.pairwise_cons.mpr ⟨?_, h⟩
      intro y hy
      rcases List.mem_cons.mp hy with rfl | hy
      · exact hab
      · exact le_trans hab (hb y hy)
    · simp only [insertByRank, if_neg hab]
      refine List.pairwise_cons.mpr ⟨?_, ih hl⟩
      intro y hy
      rcases mem_insertByRank.mp hy with rfl | hy
      · omega
      · exact hb y hy

theorem sortByRank_pairwise (l : List (Nat × Nat)) :
    (sortByRank l).Pairwise (fun x y => x.1 ≤ y.1) := by
  induction l with
  | nil => simp [sortByRank]
  | cons a l ih => exact insertByRank_pairwise a _ ih

/-- Sanity: sortByRank permutes its input (no element lost or duplicated). -/
theorem sortByRank_perm (l : List (Nat × Nat)) : List.Perm (sortByRank l) l := by
  induction l with
  | nil => exact List.Perm.refl _
  | cons a l ih =>
    have hins : ∀ m : List (Nat × Nat), List.Perm (insertByRank a m) (a :: m) := by
      intro m
      induction m with
      | nil => exact List.Perm.refl _
      | cons b m ihm =>
        by_cases h : a.1 ≤ b.1
        · simp [insertByRank, h]
        · simp only [insertByRank, if_neg h]
          exact (ihm.cons b).trans (List.Perm.swap a b m)
    exact (hins (sortByRank l)).trans (ih.cons a)

/-- Sanity: sortByRank is stable — for every rank value k, the elements of
rank k appear in the output in exactly their input order. -/
theorem sortByRank_stable (l : List (Nat × Nat)) (k : Nat) :
    (sortByRank l).filter (fun x => x.1 == k) = l.filter (fun x => x.1 == k) := by
  induction l with
  | nil => rfl
  | cons a l ih =>
    have hins : ∀ m : List (Nat × Nat),
        (insertByRank a m).filter (fun x => x.1 == k) =
          if a.1 == k then a :: m.filter (fun x => x.1 == k)
          else m.filter (fun x => x.1 == k) := by
      intro m
      induction m with
      | nil => by_cases h : a.1 == k <;> simp [insertByRank, List.filter, h]
      | cons b m ihm =>
        by_cases hab : a.1 ≤ b.1
        · by_cases ha : a.1 == k <;> simp [insertByRank, if_pos hab, List.filter, ha]
        · have hba : b.1 < a.1 := by omega
          by_cases ha : a.1 == k
          · have hak : a.1 = k := by simpa using ha
            by_cases hb : b.1 == k
            · have hbk : b.1 = k := by simpa using hb
              exfalso
              omega
            · simp [insertByRank, if_neg hab, List.filter, hb, ihm, ha]
          · by_cases hb : b.1 == k <;>
              simp [insertByRank, if_neg hab, List.filter, hb, ihm, ha]
    rw [sortByRank, hins, ih]
    by_cases ha : a.1 == k <;> simp [List.filter, ha]

theorem insertByRank_ne_nil (a : Nat × Nat) (l : List (Nat × Nat)) :
    insertByRank a l ≠ [] := by
  cases l with
  | nil => simp [insertByRank]
  | cons b l =>
    by_cases h : a.1 ≤ b.1 <;> simp [insertByRank, h]

theorem mem_of_getLast?_eq {α : Type} {l : List α} {b : α}
    (h : l.getLast? = some b) : b ∈ l := by
  have hb : b ∈ l.getLast? := by
    rw [h]
    rfl
  rcases List.mem_getLast?_eq_getLast hb with ⟨hne, rfl⟩
  exact List.getLast_mem hne

/-- The last element of inserting a into an ascending-sorted list: the old
last element keeps its place unless a's rank strictly exceeds it. -/
theorem getLast?_insertByRank (a : Nat × Nat) (l : List (Nat × Nat))
    (h : l.Pairwise (fun x y => x.1 ≤ y.1)) :
    (insertByRank a l).getLast? =
      match l.getLast? with
      | none => some a
      | some b => if a.1 ≤ b.1 then some b else some a := by
  induction l with
  | nil => rfl
  | cons c t ih =>
    rcases List.pairwise_cons.mp h with ⟨hc, ht⟩
    by_cases hac : a.1 ≤ c.1
    · rw [show insertByRank a (c :: t) = a :: c :: t by simp [insertByRank, hac]]
      rw [List.getLast?_cons_cons]
      cases hb : (c :: t).getLast? with
      | none => exact absurd (List.getLast?_eq_none_iff.mp hb) (by simp)
      | some b =>
        have hmem : b ∈ c :: t := mem_of_getLast?_eq hb
        have hab : a.1 ≤ b.1 := by
          rcases List.mem_cons.mp hmem with rfl | hbt
          · exact hac
          · exact le_trans hac (hc b hbt)
        simp [hb, if_pos hab]
    · rw [show insertByRank a (c :: t) = c :: insertByRank a t by
        simp [insertByRank, hac]]
      obtain ⟨d, m, hm⟩ := List.exists_cons_of_ne_nil (insertByRank_ne_nil a t)
      rw [hm, List.getLast?_cons_cons, ← hm, ih ht]
      cases htl : t.getLast? with
      | none =>
        have : t = [] := List.getLast?_eq_none_iff.mp htl
        subst this
        simp [hac]
      | some b =>
        have htne : t ≠ [] := by
          intro hnil
          rw [hnil] at htl
          simp at htl
        obtain ⟨e, t', het⟩ := List.exists_cons_of_ne_nil htne
        subst het
        rw [List.getLast?_cons_cons, htl]

/-- The last element of the stable ascending sort is the latest element of
maximal rank. -/
theorem getLast?_sortByRank (l : List (Nat × Nat)) :
    (sortByRank l).getLast? = lastMax l := by
  induction l with
  | nil => rfl
  | cons a l ih =>
    rw [show sortByRank (a :: l) = insertByRank a (sortByRank l) from rfl]
    rw [getLast?_insertByRank a _ (sortByRank_pairwise l), ih]
    cases h : lastMax l <;> simp [lastMax, h]

theorem lastMax_eq_none_iff (l : List (Nat × Nat)) :
    lastMax l = none ↔ l = [] := by
  cases l with
  | nil => simp [lastMax]
  | cons a t =>
    simp only [lastMax]
    cases lastMax t with
    | none => simp
    | some b => by_cases h : a.1 ≤ b.1 <;> simp [h]

/-- lastMax, on a list whose second components are strictly increasing,
returns an element of the list whose rank is maximal, and which comes after
every other element sharing that maximal rank. -/
theorem lastMax_spec :
    ∀ (l : List (Nat × Nat)), l.Pairwise (fun x y => x.2 < y.2) →
      ∀ b, lastMax l = some b →
        b ∈ l ∧ ∀ x ∈ l, x.1 ≤ b.1 ∧ (x.1 = b.1 → x.2 ≤ b.2) := by
  intro l
  induction l with
  | nil =>
    intro _ b hb
    simp [lastMax] at hb
  | cons a t ih =>
    intro hp b hb
    rcases List.pairwise_cons.mp hp with ⟨ha, hpt⟩
    cases hc : lastMax t with
    | none =>
      have ht : t = [] := (lastMax_eq_none_iff t).mp hc
      subst ht
      simp [lastMax] at hb
      subst hb
      simp
    | some c =>
      simp only [lastMax, hc] at hb
      rcases ih hpt c hc with ⟨hcm, hmax⟩
      by_cases hac : a.1 ≤ c.1
      · rw [if_pos hac] at hb
        cases hb
        refine ⟨List.mem_cons_of_mem a hcm, ?_⟩
        intro x hx
        rcases List.mem_cons.mp hx with rfl | hxt
        · exact ⟨hac, fun _ => le_of_lt (ha b hcm)⟩
        · exact hmax x hxt
      · rw [if_neg hac] at hb
        cases hb
        refine ⟨List.mem_cons_self a t, ?_⟩
        intro x hx
        rcases List.mem_cons.mp hx with rfl | hxt
        · exact ⟨le_refl _, fun _ => le_refl _⟩
        · have hxc := hmax x hxt
          constructor
          · omega
          · intro hxe
            exfalso
            omega

theorem mem_rankedForAux_idx {tag : AVTag} {ps : List PlayerSpec} :
    ∀ {i : Nat} {x : Nat × Nat}, x ∈ rankedForAux tag ps i → i ≤ x.2 := by
  induction ps with
  | nil => intro i x hx; simp [rankedForAux] at hx
  | cons p ps ih =>
    intro i x hx
    simp only [rankedForAux] at hx
    cases hr : p.rankForTag tag with
    | some r =>
      rw [hr] at hx
      rcases List.mem_cons.mp hx with rfl | hx
      · exact le_refl _
      · exact le_trans (by omega) (ih hx)
    | none =>
      rw [hr] at hx
      exact le_trans (by omega) (ih hx)

theorem rankedForAux_pairwise (tag : AVTag) (ps : List PlayerSpec) :
    ∀ i, (rankedForAux tag ps i).Pairwise (fun x y => x.2 < y.2) := by
  induction ps with
  | nil => intro i; simp [rankedForAux]
  | cons p ps ih =>
    intro i
    simp only [rankedForAux]
    cases hr : p.rankForTag tag with
    | some r =>
      refine List.pairwise_cons.mpr ⟨?_, ih (i + 1)⟩
      intro y hy
      have := mem_rankedForAux_idx hy
      omega
    | none => exact ih (i + 1)

theorem rankedForAux_eq_nil_iff (tag : AVTag) (ps : List PlayerSpec) :
    ∀ i, rankedForAux tag ps i = [] ↔ ∀ p ∈ ps, p.rankForTag tag = none := by
  induction ps with
  | nil => intro i; simp [rankedForAux]
  | cons p ps ih =>
    intro i
    simp only [rankedForAux]
    cases hr : p.rankForTag tag with
    | some r => simp [hr]
    | none => simp [hr, ih (i + 1)]

theorem mem_rankedForAux_iff {tag : AVTag} {ps : List PlayerSpec} :
    ∀ {i r j : Nat}, (r, j) ∈ rankedForAux tag ps i ↔
      ∃ k p, ps[k]? = some p ∧ p.rankForTag tag = some r ∧ j = i + k := by
  induction ps with
  | nil =>
    intro i r j
    simp [rankedForAux]
  | cons p ps ih =>
    intro i r j
    simp only [rankedForAux]
    cases hr : p.rankForTag tag with
    | some r0 =>
      constructor
      · intro hx
        rcases List.mem_cons.mp hx with heq | hx
        · cases heq
          exact ⟨0, p, by simp, hr, by omega⟩
        · rcases ih.mp hx with ⟨k, q, hq, hqr, hj⟩
          exact ⟨k + 1, q, by simpa using hq, hqr, by omega⟩
      · rintro ⟨k, q, hq, hqr, hj⟩
        cases k with
        | zero =>
          simp at hq
          subst hq
          rw [hr] at hqr
          cases hqr
          have : j = i := by omega
          subst this
          exact List.mem_cons_self _ _
        | succ k =>
          simp at hq
          refine List.mem_cons_of_mem _ (ih.mpr ⟨k, q, hq, hqr, by omega⟩)
    | none =>
      rw [ih]
      constructor
      · rintro ⟨k, q, hq, hqr, hj⟩
        exact ⟨k + 1, q, by simpa using hq, hqr, by omega⟩
      · rintro ⟨k, q, hq, hqr, hj⟩
        cases k with
        | zero =>
          simp at hq
          subst hq
          rw [hr] at hqr
          cases hqr
        | succ k =>
          simp at hq
          exact ⟨k, q, hq, hqr, by omega⟩

/-- C1: _best_player_for_tag is a pure function of the registry and the tag
(hence deterministic), and returns the registry index of a player holding the
highest non-absent rank for the tag, the latest-registered one among ties;
when no registered player ranks the tag it returns none. -/
theorem best_player_for_tag_correct (players : List PlayerSpec) (tag : AVTag) :
    (bestPlayerForTag players tag = none ↔
      ∀ p ∈ players, p.rankForTag tag = none) ∧
    (∀ i, bestPlayerForTag players tag = some i →
      ∃ p r, players[i]? = some p ∧ p.rankForTag tag = some r ∧
        ∀ j q s, players[j]? = some q → q.rankForTag tag = some s →
          s ≤ r ∧ (s = r → j ≤ i)) := by
  constructor
  · rw [bestPlayerForTag, getLast?_sortByRank, Option.map_eq_none']
    rw [lastMax_eq_none_iff]
    exact rankedForAux_eq_nil_iff tag players 0
  · intro i hi
    rw [bestPlayerForTag, getLast?_sortByRank] at hi
    rcases Option.map_eq_some'.mp hi with ⟨⟨r, j⟩, hlm, hj⟩
    simp only at hj
    rcases lastMax_spec _ (rankedForAux_pairwise tag players 0) _ hlm with
      ⟨hmem, hmax⟩
    rcases mem_rankedForAux_iff.mp hmem with ⟨k, p, hp, hpr, hk⟩
    have hki : k = i := by omega
    subst hki
    refine ⟨p, r, hp, hpr, ?_⟩
    intro j' q s hq hqr
    have hmem2 : (s, j') ∈ rankedForAux tag players 0 :=
      mem_rankedForAux_iff.mpr ⟨j', q, hq, hqr, by omega⟩
    have hx := hmax _ hmem2
    refine ⟨hx.1, fun hsr => ?_⟩
    have := hx.2 hsr
    omega

/-- Two concrete registries from the spec examples: equal top ranks pick the
later-registered player; a strictly higher rank wins regardless of position. -/
def regTie : List PlayerSpec := [⟨fun _ => some 1⟩, ⟨fun _ => some 1⟩]

def regHigherFirst : List PlayerSpec := [⟨fun _ => some 2⟩, ⟨fun _ => some 1⟩]

theorem best_player_for_tag_correct_witness :
    bestPlayerForTag regTie (AVTag.soundOrVideo "a.mp3") = some 1 ∧
    bestPlayerForTag regHigherFirst (AVTag.soundOrVideo "a.mp3") = some 0 ∧
    (∃ p r, regTie[1]? = some p ∧
      p.rankForTag (AVTag.soundOrVideo "a.mp3") = some r ∧
      ∀ j q s, regTie[j]? = some q →
        q.rankForTag (AVTag.soundOrVideo "a.mp3") = some s →
          s ≤ r ∧ (s = r → j ≤ 1)) :=
  ⟨rfl, rfl,
    (best_player_for_tag_correct regTie (AVTag.soundOrVideo "a.mp3")).2 1 rfl⟩

/-- Observable actions of the scheduler, recorded in program order:
stopIssued p embeds current_player.stop() (sound.py line 136); dispatched t p
embeds the gui_hooks.av_player_will_play(tag) notification followed by
current_player.play(tag, ...) (lines 161-162); noPlayerFound t embeds the
print("no players found", tag) diagnostic (line 164); didPlay embeds
gui_hooks.av_player_did_play() (line 146). -/
inductive AVEvent where
  | stopIssued (player : Nat)
  | dispatched (tag : AVTag) (player : Nat)
  | noPlayerFound (tag : AVTag)
  | didPlay
deriving DecidableEq, Repr

/-- AVPlayer's mutable state (sound.py lines 86-88): the pending queue
_enqueued and the zero-or-one active player current_player (identified by
registry index). -/
structure AVState where
  enqueued : List AVTag
  currentPlayer : Option Nat
deriving DecidableEq, Repr

/-- AVPlayer._stop_if_playing (sound.py lines 134-137): stop the active
player if any, then clear the slot. -/
def stopIfPlaying (s : AVState) : AVState × List AVEvent :=
  match s.currentPlayer with
  | some p => ({ s with currentPlayer := none }, [AVEvent.stopIssued p])
  | none => ({ s with currentPlayer := none }, [])

/-- AVPlayer._pop_next (sound.py lines 139-142): pop the queue head. -/
def popNext (s : AVState) : AVState × Option AVTag :=
  match s.enqueued with
  | [] => (s, none)
  | t :: rest => ({ s with enqueued := rest }, some t)

/-- AVPlayer._play (sound.py lines 157-164): pick the best player for the
tag; if one exists make it current and dispatch, else print a diagnostic. -/
def playTag (players : List PlayerSpec) (s : AVState) (tag : AVTag) :
    AVState × List AVEvent :=
  match bestPlayerForTag players tag with
  | some p => ({ s with currentPlayer := some p }, [AVEvent.dispatched tag p])
  | none => (s, [AVEvent.noPlayerFound tag])

/-- AVPlayer._play_next_if_idle (sound.py lines 149-155): do nothing while a
player is active; otherwise pop the next tag and play it if present. -/
def playNextIfIdle (players : List PlayerSpec) (s : AVState) :
    AVState × List AVEvent :=
  match s.currentPlayer with
  | some _ => (s, [])
  | none =>
    match popNext s with
    | (s', some t) => playTag players s' t
    | (s', none) => (s', [])

/-- AVPlayer.play_tags (sound.py lines 90-95): replace the queue, stop the
active player when the interrupt_current_audio policy is on, then attempt a
dispatch. -/
def playTags (players : List PlayerSpec) (interrupt : Bool) (s : AVState)
    (tags : List AVTag) : AVState × List AVEvent :=
  let s1 : AVState := { s with enqueued := tags }
  let r1 := if interrupt then stopIfPlaying s1 else (s1, [])
  let r2 := playNextIfIdle players r1.1
  (r2.1, r1.2 ++ r2.2)

/-- AVPlayer.extend_and_play (sound.py lines 97-100): append to the queue,
then attempt a dispatch. -/
def extendAndPlay (players : List PlayerSpec) (s : AVState)
    (tags : List AVTag) : AVState × List AVEvent :=
  playNextIfIdle players { s with enqueued := s.enqueued ++ tags }

/-- AVPlayer.insert_file (sound.py lines 117-119): push a sound tag at the
front of the queue, then attempt a dispatch. -/
def insertFile (players : List PlayerSpec) (s : AVState) (filename : String) :
    AVState × List AVEvent :=
  playNextIfIdle players
    { s with enqueued := AVTag.soundOrVideo filename :: s.enqueued }

/-- AVPlayer._on_play_finished (sound.py lines 144-147): clear the active
slot, emit did-play, then attempt a dispatch. -/
def onPlayFinished (players : List PlayerSpec) (s : AVState) :
    AVState × List AVEvent :=
  let r := playNextIfIdle players { s with currentPlayer := none }
  (r.1, AVEvent.didPlay :: r.2)

/-- AVPlayer.stop_and_clear_queue (sound.py lines 110-112): empty the queue
and stop the active player. -/
def stopAndClearQueue (s : AVState) : AVState × List AVEvent :=
  stopIfPlaying { s with enqueued := [] }

/-- The scheduler operations of claim C3. -/
inductive AVOp where
  | opPlayTags (tags : List AVTag)
  | opExtendAndPlay (tags : List AVTag)
  | opInsertFile (filename : String)
  | opOnPlayFinished
  | opStopAndClearQueue
deriving DecidableEq, Repr

def stepOp (players : List PlayerSpec) (interrupt : Bool) (s : AVState) :
    AVOp → AVState × List AVEvent
  | .opPlayTags tags => playTags players interrupt s tags
  | .opExtendAndPlay tags => extendAndPlay players s tags
  | .opInsertFile filename => insertFile players s filename
  | .opOnPlayFinished => onPlayFinished players s
  | .opStopAndClearQueue => stopAndClearQueue s

/-- The set of active players in a state: the content of the single
current_player slot. -/
def activePlayers (s : AVState) : List Nat :=
  s.currentPlayer.toList

def dispatchCount (es : List AVEvent) : Nat :=
  (es.filter fun e =>
    match e with
    | AVEvent.dispatched _ _ => true
    | _ => false).length

theorem dispatchCount_append (a b : List AVEvent) :
    dispatchCount (a ++ b) = dispatchCount a + dispatchCount b := by
  simp [dispatchCount, List.filter_append]

theorem dispatchCount_playTag (players : List PlayerSpec) (s : AVState)
    (tag : AVTag) : dispatchCount (playTag players s tag).2 ≤ 1 := by
  unfold playTag
  cases bestPlayerForTag players tag <;> simp [dispatchCount]

theorem dispatchCount_playNextIfIdle (players : List PlayerSpec)
    (s : AVState) : dispatchCount (playNextIfIdle players s).2 ≤ 1 := by
  unfold playNextIfIdle
  cases hc : s.currentPlayer with
  | some p => simp [dispatchCount]
  | none =>
    cases hq : s.enqueued with
    | nil => simp [popNext, hq, dispatchCount]
    | cons t rest =>
      simp only [popNext, hq]
      exact dispatchCount_playTag players _ t

theorem dispatchCount_stopIfPlaying (s : AVState) :
    dispatchCount (stopIfPlaying s).2 = 0 := by
  unfold stopIfPlaying
  cases s.currentPlayer <;> simp [dispatchCount]

/-- C3: the scheduler's active set is the single current_player slot, so at
most one player is active at any instant; _play_next_if_idle returns without
dispatching (and without touching the state) whenever a player is active; and
no single scheduler operation ever emits more than one dispatch. -/
theorem at_most_one_active (players : List PlayerSpec) :
    (∀ s : AVState, (activePlayers s).length ≤ 1) ∧
    (∀ s : AVState, s.currentPlayer ≠ none →
      playNextIfIdle players s = (s, [])) ∧
    (∀ (interrupt : Bool) (s : AVState) (op : AVOp),
      dispatchCount (stepOp players interrupt s op).2 ≤ 1) := by
  refine ⟨?_, ?_, ?_⟩
  · intro s
    cases h : s.currentPlayer <;> simp [activePlayers, h]
  · intro s h
    unfold playNextIfIdle
    cases hc : s.currentPlayer with
    | some p => rfl
    | none => exact absurd hc h
  · intro interrupt s op
    cases op with
    | opPlayTags tags =>
      simp only [stepOp, playTags]
      rw [dispatchCount_append]
      have h1 : dispatchCount
          (if interrupt then stopIfPlaying { s with enqueued := tags }
            else ({ s with enqueued := tags }, [])).2 = 0 := by
        cases interrupt with
        | true => simp [dispatchCount_stopIfPlaying]
        | false => simp [dispatchCount]
      have h2 := dispatchCount_playNextIfIdle players
        (if interrupt then stopIfPlaying { s with enqueued := tags }
          else ({ s with enqueued := tags }, [])).1
      omega
    | opExtendAndPlay tags => exact dispatchCount_playNextIfIdle players _
    | opInsertFile filename => exact dispatchCount_playNextIfIdle players _
    | opOnPlayFinished =>
      simp only [stepOp, onPlayFinished]
      have h2 := dispatchCount_playNextIfIdle players
        { s with currentPlayer := none }
      simp only [dispatchCount, List.filter] at h2 ⊢
      omega
    | opStopAndClearQueue =>
      simp only [stepOp, stopAndClearQueue]
      rw [dispatchCount_stopIfPlaying]
      omega

theorem at_most_one_active_witness :
    playNextIfIdle []
        { enqueued := [AVTag.soundOrVideo "a.mp3"], currentPlayer := some 0 } =
      ({ enqueued := [AVTag.soundOrVideo "a.mp3"], currentPlayer := some 0 },
        []) :=
  (at_most_one_active []).2.1 _ (by simp)

/-- C7: when no registered player ranks the popped tag, the dispatch prints a
diagnostic and leaves the slot idle: no play happens, the popped tag is
discarded (not retried), and the rest of the queue is untouched — the
function returns normally, so no exception halts the scheduler. -/
theorem no_player_for_tag_leaves_idle (players : List PlayerSpec)
    (tag : AVTag) (rest : List AVTag)
    (h : bestPlayerForTag players tag = none) :
    playNextIfIdle players { enqueued := tag :: rest, currentPlayer := none } =
      ({ enqueued := rest, currentPlayer := none },
        [AVEvent.noPlayerFound tag]) := by
  simp [playNextIfIdle, popNext, playTag, h]

theorem no_player_for_tag_leaves_idle_witness :
    bestPlayerForTag [] (AVTag.soundOrVideo "a.mp3") = none ∧
    playNextIfIdle []
        { enqueued := [AVTag.soundOrVideo "a.mp3"], currentPlayer := none } =
      ({ enqueued := [], currentPlayer := none },
        [AVEvent.noPlayerFound (AVTag.soundOrVideo "a.mp3")]) :=
  ⟨rfl, no_player_for_tag_leaves_idle [] (AVTag.soundOrVideo "a.mp3") [] rfl⟩

/-- C8: extend_and_play while a player is active only appends the new tags to
the back of the queue — the active player and the already-queued tags are
unchanged and no event at all (in particular no stop and no dispatch) is
emitted, so the appended tags can only be reached after the current play
completes; when idle it performs the usual dispatch attempt on the extended
queue. -/
theorem extend_and_play_noninterfering (players : List PlayerSpec)
    (s : AVState) (tags : List AVTag) :
    (∀ p, s.currentPlayer = some p →
      extendAndPlay players s tags =
        ({ enqueued := s.enqueued ++ tags, currentPlayer := some p }, [])) ∧
    (s.currentPlayer = none →
      extendAndPlay players s tags =
        playNextIfIdle players
          { enqueued := s.enqueued ++ tags, currentPlayer := none }) := by
  obtain ⟨q, c⟩ := s
  constructor
  · intro p hp
    simp only at hp
    subst hp
    simp [extendAndPlay, playNextIfIdle]
  · intro hp
    simp only at hp
    subst hp
    rfl

theorem extend_and_play_noninterfering_witness :
    extendAndPlay []
        { enqueued := [AVTag.soundOrVideo "a.mp3"], currentPlayer := some 2 }
        [AVTag.soundOrVideo "b.mp3"] =
      ({ enqueued := [AVTag.soundOrVideo "a.mp3", AVTag.soundOrVideo "b.mp3"],
          currentPlayer := some 2 }, []) :=
  (extend_and_play_noninterfering []
    { enqueued := [AVTag.soundOrVideo "a.mp3"], currentPlayer := some 2 }
    [AVTag.soundOrVideo "b.mp3"]).1 2 rfl

/-- C10: play_tags([]) with the interrupt policy enabled empties the queue,
stops and clears any active player, and dispatches nothing (popping the empty
queue yields nothing); the function is total, so no error is raised. -/
theorem play_tags_empty_acts_as_stop (players : List PlayerSpec)
    (s : AVState) :
    playTags players true s [] =
      ({ enqueued := [], currentPlayer := none },
        (s.currentPlayer.map AVEvent.stopIssued).toList) := by
  obtain ⟨q, c⟩ := s
  cases c <;> simp [playTags, stopIfPlaying, playNextIfIdle, popNext]

/-- The outcome of SimpleProcessPlayer._play as consumed by _on_done
(sound.py lines 260-266): either the process exited on its own — success
with its exit code, logged = true when the code was non-zero (the print at
line 249) — or PlayerInterrupted was raised (line 255). -/
inductive PlayResult where
  | success (code : Int) (logged : Bool)
  | interrupted
deriving DecidableEq, Repr

/-- What _wait_for_termination leaves behind (sound.py lines 243-258): its
result, plus the values of _terminate_flag and of the process handle after
the finally block (lines 256-258) has run. -/
structure WaitOutcome where
  result : PlayResult
  flagAfter : Bool
  processAfter : Bool
deriving DecidableEq, Repr

/-- SimpleProcessPlayer._wait_for_termination (sound.py lines 243-258), poll
by poll.  exitAt n tells whether self._process.wait(0.1) at poll n observes
the process exit and with which code; flagAt n is the value of
_terminate_flag read at poll n (that flag is written concurrently by
stop()).  Each poll checks process exit FIRST and only then the flag (lines
246-255); the finally block always clears the process handle and the flag.
fuel bounds the number of polls modelled: none means the loop was still
running after fuel polls (neither exit nor flag observed by then). -/
def waitForTerminationAux (exitAt : Nat → Option Int) (flagAt : Nat → Bool) :
    Nat → Nat → Option WaitOutcome
  | _, 0 => none
  | n, fuel + 1 =>
    match exitAt n with
    | some code =>
      some { result := PlayResult.success code (code != 0),
             flagAfter := false, processAfter := false }
    | none =>
      if flagAt n then
        some { result := PlayResult.interrupted,
               flagAfter := false, processAfter := false }
      else waitForTerminationAux exitAt flagAt (n + 1) fuel

def waitForTermination (exitAt : Nat → Option Int) (flagAt : Nat → Bool)
    (fuel : Nat) : Option WaitOutcome :=
  waitForTerminationAux exitAt flagAt 0 fuel

/-- SimpleProcessPlayer._on_done (sound.py lines 260-266): how many times
the scheduler callback cb runs for a given play result — PlayerInterrupted
is swallowed without calling cb, any other return calls cb exactly once. -/
def onDoneCalls : PlayResult → Nat
  | PlayResult.interrupted => 0
  | PlayResult.success _ _ => 1

/-- SimpleProcessPlayer.stop (sound.py lines 231-237): set _terminate_flag,
then sleep 100ms at a time while the flag is still set and under 10 seconds
have elapsed.  Time is discretised into 100ms polls, so the 10-second
ceiling is 100 polls.  flagAt n is the flag value observed at poll n: stop()
just set it, and only a concurrently running _wait_for_termination clears
it, so with no supervising loop running it stays true at every poll.  The
value returned is the number of polls made before stop() hands back
control. -/
def stopWaitAux (flagAt : Nat → Bool) : Nat → Nat → Nat
  | 0, acc => acc
  | fuel + 1, acc =>
    if flagAt acc then stopWaitAux flagAt fuel (acc + 1) else acc

def stopWait (flagAt : Nat → Bool) : Nat :=
  stopWaitAux flagAt 100 0

/-- MpvManager's completion-callback bookkeeping (sound.py lines 334-359):
play stores the scheduler's on_done callback in self._on_done (line 344);
stop() only sends the "stop" command to the mpv process and leaves _on_done
untouched (lines 348-349); on_idle — run by the external MPV base class
whenever playback stops — calls the stored callback whenever one is set
(lines 357-359).  fired counts callback invocations. -/
structure MpvState where
  onDoneSet : Bool
  fired : Nat
deriving DecidableEq, Repr

def mpvPlay (s : MpvState) : MpvState :=
  { s with onDoneSet := true }

def mpvStop (s : MpvState) : MpvState :=
  s

def mpvOnIdle (s : MpvState) : MpvState :=
  if s.onDoneSet then { s with fired := s.fired + 1 } else s

theorem stopWaitAux_le (flagAt : Nat → Bool) :
    ∀ fuel acc, stopWaitAux flagAt fuel acc ≤ acc + fuel := by
  intro fuel
  induction fuel with
  | zero =>
    intro acc
    simp [stopWaitAux]
  | succ fuel ih =>
    intro acc
    cases h : flagAt acc with
    | true =>
      simp only [stopWaitAux, h, if_true]
      have := ih (acc + 1)
      omega
    | false =>
      simp [stopWaitAux, h]

theorem stopWaitAux_all_true (flagAt : Nat → Bool) :
    ∀ fuel acc, (∀ m, acc ≤ m → m < acc + fuel → flagAt m = true) →
      stopWaitAux flagAt fuel acc = acc + fuel := by
  intro fuel
  induction fuel with
  | zero =>
    intro acc _
    simp [stopWaitAux]
  | succ fuel ih =>
    intro acc h
    have hacc : flagAt acc = true := h acc (le_refl acc) (by omega)
    simp only [stopWaitAux, hacc, if_true]
    have := ih (acc + 1) (fun m hm hm2 => h m (by omega) (by omega))
    omega

theorem stopWaitAux_first_false (flagAt : Nat → Bool) :
    ∀ fuel acc k, acc ≤ k → k < acc + fuel →
      (∀ m, acc ≤ m → m < k → flagAt m = true) → flagAt k = false →
      stopWaitAux flagAt fuel acc = k := by
  intro fuel
  induction fuel with
  | zero =>
    intro acc k h1 h2
    omega
  | succ fuel ih =>
    intro acc k h1 h2 hpre hk
    rcases Nat.eq_or_lt_of_le h1 with rfl | hlt
    · simp [stopWaitAux, hk]
    · have hacc : flagAt acc = true := hpre acc (le_refl acc) hlt
      simp only [stopWaitAux, hacc, if_true]
      exact ih (acc + 1) k (by omega) (by omega)
        (fun m hm hm2 => hpre m (by omega) hm2) hk

theorem waitAux_clears_flag (exitAt : Nat → Option Int) (flagAt : Nat → Bool) :
    ∀ (fuel n : Nat) (o : WaitOutcome),
      waitForTerminationAux exitAt flagAt n fuel = some o →
      o.flagAfter = false ∧ o.processAfter = false := by
  intro fuel
  induction fuel with
  | zero =>
    intro n o h
    simp [waitForTerminationAux] at h
  | succ fuel ih =>
    intro n o h
    cases hex : exitAt n with
    | some c =>
      simp only [waitForTerminationAux, hex] at h
      cases h
      exact ⟨rfl, rfl⟩
    | none =>
      cases hfl : flagAt n with
      | true =>
        simp only [waitForTerminationAux, hex, hfl, if_true] at h
        cases h
        exact ⟨rfl, rfl⟩
      | false =>
        simp only [waitForTerminationAux, hex, hfl] at h
        simp only [Bool.false_eq_true, if_false] at h
        exact ih (n + 1) o h

theorem waitAux_success (exitAt : Nat → Option Int) (flagAt : Nat → Bool) :
    ∀ (fuel n j : Nat) (c : Int), j < fuel → exitAt (n + j) = some c →
      (∀ m, m < j → exitAt (n + m) = none ∧ flagAt (n + m) = false) →
      waitForTerminationAux exitAt flagAt n fuel =
        some { result := PlayResult.success c (c != 0),
               flagAfter := false, processAfter := false } := by
  intro fuel
  induction fuel with
  | zero =>
    intro n j c hj
    omega
  | succ fuel ih =>
    intro n j c hj hex hpre
    cases j with
    | zero =>
      rw [Nat.add_zero] at hex
      simp [waitForTerminationAux, hex]
    | succ j =>
      have h0 := hpre 0 (by omega)
      rw [Nat.add_zero] at h0
      simp only [waitForTerminationAux, h0.1, h0.2, Bool.false_eq_true,
        if_false]
      exact ih (n + 1) j c (by omega)
        (by rw [show n + 1 + j = n + (j + 1) by omega]; exact hex)
        (fun m hm => by
          rw [show n + 1 + m = n + (m + 1) by omega]
          exact hpre (m + 1) (by omega))

theorem waitAux_interrupted_iff (exitAt : Nat → Option Int)
    (flagAt : Nat → Bool) :
    ∀ (fuel n : Nat) (o : WaitOutcome),
      waitForTerminationAux exitAt flagAt n fuel = some o →
      (o.result = PlayResult.interrupted ↔
        ∃ k, k < fuel ∧ exitAt (n + k) = none ∧ flagAt (n + k) = true ∧
          ∀ m, m < k → exitAt (n + m) = none ∧ flagAt (n + m) = false) := by
  intro fuel
  induction fuel with
  | zero =>
    intro n o h
    simp [waitForTerminationAux] at h
  | succ fuel ih =>
    intro n o h
    cases hex : exitAt n with
    | some c =>
      simp only [waitForTerminationAux, hex] at h
      cases h
      constructor
      · intro hr
        simp at hr
      · rintro ⟨k, hk, hkex, hkflag, hpre⟩
        cases k with
        | zero =>
          rw [Nat.add_zero, hex] at hkex
          cases hkex
        | succ k =>
          have h0 := (hpre 0 (by omega)).1
          rw [Nat.add_zero, hex] at h0
          cases h0
    | none =>
      cases hfl : flagAt n with
      | true =>
        simp only [waitForTerminationAux, hex, hfl, if_true] at h
        cases h
        simp only
        constructor
        · intro _
          refine ⟨0, by omega, ?_, ?_, fun m hm => absurd hm (by omega)⟩
          · rw [Nat.add_zero]
            exact hex
          · rw [Nat.add_zero]
            exact hfl
        · intro _
          trivial
      | false =>
        simp only [waitForTerminationAux, hex, hfl, Bool.false_eq_true,
          if_false] at h
        rw [ih (n + 1) o h]
        constructor
        · rintro ⟨k, hk, hkex, hkflag, hpre⟩
          refine ⟨k + 1, by omega, ?_, ?_, ?_⟩
          · rw [show n + (k + 1) = n + 1 + k by omega]
            exact hkex
          · rw [show n + (k + 1) = n + 1 + k by omega]
            exact hkflag
          · intro m hm
            cases m with
            | zero =>
              rw [Nat.add_zero]
              exact ⟨hex, hfl⟩
            | succ m =>
              rw [show n + (m + 1) = n + 1 + m by omega]
              exact hpre m (by omega)
        · rintro ⟨k, hk, hkex, hkflag, hpre⟩
          cases k with
          | zero =>
            rw [Nat.add_zero, hfl] at hkflag
            cases hkflag
          | succ k =>
            refine ⟨k, by omega, ?_, ?_, ?_⟩
            · rw [show n + 1 + k = n + (k + 1) by omega]
              exact hkex
            · rw [show n + 1 + k = n + (k + 1) by omega]
              exact hkflag
            · intro m hm
              rw [show n + 1 + m = n + (m + 1) by omega]
              exact hpre (m + 1) (by omega)

/-- C4: stop() sets the flag and then polls it at 100ms intervals under a
10-second ceiling (100 polls in the discrete-time model, one poll per 100ms
sleep).  It hands control back after at most 100 polls in every case: at the
first poll that sees the flag cleared, and at the ceiling when the flag
never clears — e.g. when the underlying process never exits, or when no
supervising loop is running at all.  stopWait is a total function, so stop()
returns in either case. -/
theorem stop_returns_within_ceiling (flagAt : Nat → Bool) :
    stopWait flagAt ≤ 100 ∧
    ((∀ n, n < 100 → flagAt n = true) → stopWait flagAt = 100) ∧
    (∀ k, k < 100 → (∀ m, m < k → flagAt m = true) → flagAt k = false →
      stopWait flagAt = k) := by
  refine ⟨?_, ?_, ?_⟩
  · have := stopWaitAux_le flagAt 100 0
    simpa [stopWait] using this
  · intro h
    have := stopWaitAux_all_true flagAt 100 0
      (fun m hm hm2 => h m (by omega))
    simpa [stopWait] using this
  · intro k hk hpre hkf
    exact stopWaitAux_first_false flagAt 100 0 k (by omega) (by omega)
      (fun m hm hm2 => hpre m hm2) hkf

theorem stop_returns_within_ceiling_witness :
    (3 < 100 ∧ (fun n => decide (n < 3)) 3 = false) ∧
    stopWait (fun n => decide (n < 3)) = 3 :=
  ⟨⟨by decide, by decide⟩,
    (stop_returns_within_ceiling (fun n => decide (n < 3))).2.2 3 (by decide)
      (fun m hm => decide_eq_true hm) (by decide)⟩

/-- A concrete supervision schedule: the process exits with code 3 at poll 2
and the stop flag is never raised. -/
def exitAtPoll2 : Nat → Option Int :=
  fun n => if n == 2 then some 3 else none

def flagNever : Nat → Bool :=
  fun _ => false

/-- C6: a process exiting on its own with a non-zero code is natural
completion: the supervisor returns success carrying that code (never the
interrupted signal), the non-zero code is only logged (the logged flag of
the result), and on_done is invoked exactly once. -/
theorem nonzero_exit_is_natural_completion (exitAt : Nat → Option Int)
    (flagAt : Nat → Bool) (fuel n : Nat) (c : Int) (hn : n < fuel)
    (hexit : exitAt n = some c)
    (hbefore : ∀ m, m < n → exitAt m = none ∧ flagAt m = false) :
    waitForTermination exitAt flagAt fuel =
      some { result := PlayResult.success c (c != 0),
             flagAfter := false, processAfter := false } ∧
    onDoneCalls (PlayResult.success c (c != 0)) = 1 ∧
    (c ≠ 0 → (c != 0) = true) := by
  refine ⟨?_, rfl, fun h => by simpa using h⟩
  exact waitAux_success exitAt flagAt fuel 0 n c hn
    (by simpa using hexit) (fun m hm => by simpa using hbefore m hm)

theorem nonzero_exit_is_natural_completion_witness :
    (2 < 10 ∧ exitAtPoll2 2 = some 3 ∧
      (∀ m, m < 2 → exitAtPoll2 m = none ∧ flagNever m = false)) ∧
    waitForTermination exitAtPoll2 flagNever 10 =
      some { result := PlayResult.success 3 ((3 : Int) != 0),
             flagAfter := false, processAfter := false } ∧
    onDoneCalls (PlayResult.success 3 ((3 : Int) != 0)) = 1 :=
  ⟨⟨by decide, by decide, by decide⟩,
    (nonzero_exit_is_natural_completion exitAtPoll2 flagNever 10 2 3
      (by decide) (by decide) (by decide)).1,
    (nonzero_exit_is_natural_completion exitAtPoll2 flagNever 10 2 3
      (by decide) (by decide) (by decide)).2.1⟩

/-- C2 counterexample: each poll of _wait_for_termination checks process
exit BEFORE the stop flag (sound.py lines 246-255), so in the interleaving
where stop() has already raised the flag and the process exits naturally
inside the same 100ms poll window, the loop returns success and the on_done
callback still fires — refuting "if stop() is called before the play
completes naturally, on_done is never invoked". -/
theorem stop_racing_natural_exit_still_fires :
    waitForTermination (fun _ => some 0) (fun _ => true) 100 =
      some { result := PlayResult.success 0 ((0 : Int) != 0),
             flagAfter := false, processAfter := false } ∧
    onDoneCalls (PlayResult.success 0 ((0 : Int) != 0)) = 1 := by
  exact ⟨by decide, by decide⟩

/-- C2 amended: for SimpleProcessPlayer plays, on_done runs exactly once
when the supervising loop observes the process exit and never when the loop
observes the stop flag first; interruption happens exactly when some poll
sees the flag raised with the process not yet exited, every earlier poll
having seen neither.  A stop() racing a natural exit inside one poll window
is therefore not suppressed, because exit is checked first.  MpvManager
suppresses nothing at all: stop() leaves _on_done set, so when the external
MPV event loop next reports idle, on_idle still invokes the callback. -/
theorem on_done_iff_not_interrupted (exitAt : Nat → Option Int)
    (flagAt : Nat → Bool) (fuel : Nat) (o : WaitOutcome)
    (h : waitForTermination exitAt flagAt fuel = some o) :
    (onDoneCalls o.result =
      if o.result = PlayResult.interrupted then 0 else 1) ∧
    (o.result = PlayResult.interrupted ↔
      ∃ k, k < fuel ∧ exitAt k = none ∧ flagAt k = true ∧
        ∀ m, m < k → exitAt m = none ∧ flagAt m = false) ∧
    (∀ s : MpvState, (mpvOnIdle (mpvStop (mpvPlay s))).fired = s.fired + 1) := by
  refine ⟨?_, ?_, ?_⟩
  · cases hr : o.result with
    | success c l => simp [onDoneCalls]
    | interrupted => simp [onDoneCalls]
  · have := waitAux_interrupted_iff exitAt flagAt fuel 0 o h
    simpa using this
  · intro s
    simp [mpvPlay, mpvStop, mpvOnIdle]

theorem on_done_iff_not_interrupted_witness :
    (onDoneCalls (PlayResult.success 3 ((3 : Int) != 0)) =
      if PlayResult.success 3 ((3 : Int) != 0) = PlayResult.interrupted
      then 0 else 1) ∧
    (PlayResult.success 3 ((3 : Int) != 0) = PlayResult.interrupted ↔
      ∃ k, k < 10 ∧ exitAtPoll2 k = none ∧ flagNever k = true ∧
        ∀ m, m < k → exitAtPoll2 m = none ∧ flagNever m = false) ∧
    (∀ s : MpvState,
      (mpvOnIdle (mpvStop (mpvPlay s))).fired = s.fired + 1) :=
  on_done_iff_not_interrupted exitAtPoll2 flagNever 10
    { result := PlayResult.success 3 ((3 : Int) != 0),
      flagAfter := false, processAfter := false } (by decide)

/-- C5 counterexample: stop() raised while no playback is in progress — no
supervising loop is running, so nothing ever clears the flag (the constant
true flag trajectory).  stop() then polls the full 10-second ceiling (100
polls) and returns with the flag still set; the next, independent playback
session — a process that would exit naturally at poll 5 — is interrupted at
its very first poll by the stale flag and its on_done suppressed, refuting
"the flag never persists into a subsequent, independent playback
session". -/
theorem stale_stop_flag_kills_next_session :
    stopWait (fun _ => true) = 100 ∧
    waitForTermination (fun n => if n == 5 then some 0 else none)
        (fun _ => true) 100 =
      some { result := PlayResult.interrupted,
             flagAfter := false, processAfter := false } ∧
    onDoneCalls PlayResult.interrupted = 0 := by
  refine ⟨?_, by decide, rfl⟩
  have := stopWaitAux_all_true (fun _ => true) 100 0 (fun m _ _ => rfl)
  simpa [stopWait] using this

/-- C5 amended: while a supervising loop is running, every session exit path
(natural exit or interruption) clears the stop flag through the finally
block, so a flag raised during a supervised session never outlives it; but
stop() itself never clears the flag — it only waits for the loop to do so —
so a flag raised when no loop is running stays set through stop()'s full
10-second ceiling, and the stale flag interrupts the next session at its
first poll (whereupon that session's finally clears it). -/
theorem stop_flag_cleared_by_loop_only (exitAt : Nat → Option Int)
    (flagAt : Nat → Bool) (fuel : Nat) :
    (∀ o, waitForTermination exitAt flagAt fuel = some o →
      o.flagAfter = false ∧ o.processAfter = false) ∧
    ((∀ n, n < 100 → flagAt n = true) → stopWait flagAt = 100) ∧
    (exitAt 0 = none → flagAt 0 = true → 0 < fuel →
      waitForTermination exitAt flagAt fuel =
        some { result := PlayResult.interrupted,
               flagAfter := false, processAfter := false }) := by
  refine ⟨?_, ?_, ?_⟩
  · intro o h
    exact waitAux_clears_flag exitAt flagAt fuel 0 o h
  · intro h
    have := stopWaitAux_all_true flagAt 100 0
      (fun m hm hm2 => h m (by omega))
    simpa [stopWait] using this
  · intro hex hfl hfuel
    cases fuel with
    | zero => omega
    | succ fuel =>
      simp [waitForTermination, waitForTerminationAux, hex, hfl]

theorem stop_flag_cleared_by_loop_only_witness :
    ((fun _ : Nat => (none : Option Int)) 0 = none ∧
      (fun _ : Nat => true) 0 = true ∧ 0 < 100) ∧
    waitForTermination (fun _ => none) (fun _ => true) 100 =
      some { result := PlayResult.interrupted,
             flagAfter := false, processAfter := false } :=
  ⟨⟨rfl, rfl, by decide⟩,
    (stop_flag_cleared_by_loop_only (fun _ => none) (fun _ => true) 100).2.2
      rfl rfl (by decide)⟩

/-- The class-level argument template of SimpleMplayerPlayer (sound.py line
290): args = _packagedCmd(["mplayer", "-really-quiet", "-noautosub"])[0].
Modelled for the common non-Windows, non-bundled case, where _packagedCmd
(lines 188-204) returns the command list unchanged and the Windows-only
append of "-ao win32" (lines 291-292) does not apply. -/
def mplayerArgs : List String :=
  ["mplayer", "-really-quiet", "-noautosub"]

/-- SimpleMplayerSlaveModePlayer.__init__ (sound.py lines 382-384):
self.args.append("-slave").  self.args resolves to the CLASS attribute
SimpleMplayerPlayer.args — the subclass declares no args of its own — and
list.append mutates that list in place, so each construction extends the one
template shared by every instance of SimpleMplayerPlayer and its
subclasses.  The shared template is threaded here as explicit state. -/
def slaveModeInit (classArgs : List String) : List String :=
  classArgs ++ ["-slave"]

/-- The command line SimpleProcessPlayer._play launches (sound.py line 240):
self.args + [tag.filename]. -/
def spawnCmd (classArgs : List String) (filename : String) : List String :=
  classArgs ++ [filename]

/-- C9: constructing SimpleMplayerSlaveModePlayer twice appends "-slave"
twice to the class-level args list shared with SimpleMplayerPlayer — state
outside the constructed instances — so the shared template then contains
"-slave" twice, and every mplayer process launched afterwards from any
instance using the shared template carries both extra arguments. -/
theorem slave_mode_init_mutates_shared_args :
    slaveModeInit (slaveModeInit mplayerArgs) =
      mplayerArgs ++ ["-slave", "-slave"] ∧
    (slaveModeInit (slaveModeInit mplayerArgs)).count "-slave" = 2 ∧
    ∀ f, spawnCmd (slaveModeInit (slaveModeInit mplayerArgs)) f =
      ["mplayer", "-really-quiet", "-noautosub", "-slave", "-slave", f] :=
  ⟨rfl, by decide, fun f => rfl⟩
